import Mathlib

/-!
Shallow embedding of the Kuramoto simulator core (`src/lib/kuramoto.ts`) and
of the seeding / sampling logic of the app component, over real numbers.
JS `number` values are modelled by `ℝ`, `Float64Array` buffers by `List ℝ`,
and in-place mutation by returning the updated buffers.  `Math.random()` and
the gaussian noise source are modelled as externally supplied streams.
-/

open Real

noncomputable section

namespace Kuramoto

/-- `Math.atan2(y, x)`, modelled as the argument of the complex number
`x + y·i` (the principal value in `(-π, π]`). -/
def atan2 (y x : ℝ) : ℝ := Complex.arg ⟨x, y⟩

/-- `wrapAngle(theta)` from `kuramoto.ts`:
`Math.atan2(Math.sin(theta), Math.cos(theta))`. -/
def wrapAngle (theta : ℝ) : ℝ := atan2 (Real.sin theta) (Real.cos theta)

/-- `computeOrder(thetas)` from `kuramoto.ts`: mean cosine and sine are
accumulated and scaled by `1/N`; the magnitude is `Math.hypot(cx, sx)`
(i.e. `√(cx² + sx²)`) and the mean phase is `Math.atan2(sx, cx)`. -/
def computeOrder (thetas : List ℝ) : ℝ × ℝ :=
  let nInv : ℝ := 1 / (thetas.length : ℝ)
  let cx : ℝ := ((thetas.map Real.cos).sum) * nInv
  let sx : ℝ := ((thetas.map Real.sin).sum) * nInv
  (Real.sqrt (cx ^ 2 + sx ^ 2), atan2 sx cx)

/-- The `CouplingContext` interface: coupling strength `K` and an optional
adjacency (`null` ⇒ all-to-all, modelled by `none`).  The optional
`scratch` field is never read by the library and is omitted. -/
structure CouplingContext where
  K : ℝ
  adj : Option (List (List ℤ))

/-- `field(out, theta, omega, ctx)` from `kuramoto.ts`.  In the all-to-all
branch it writes `omega[i] + K·r·sin(psi − theta[i])` into `out[i]` for
every `i < N`.  In the explicit-adjacency branch (source lines 63–73) the
loop accumulates the neighbour sum `s` and a `coupling` factor into
block-local variables and never assigns `out[i]`, so the output buffer is
returned unchanged. -/
def field (out theta omega : List ℝ) (ctx : CouplingContext) : List ℝ :=
  match ctx.adj with
  | none =>
      let rp := computeOrder theta
      (List.range theta.length).map (fun i =>
        omega.getD i 0 + ctx.K * rp.1 * Real.sin (rp.2 - theta.getD i 0))
  | some _ => out

/-- The `Topology` union type: `"all" | "ring" | "erdos-renyi"`. -/
inductive Topology where
  | all
  | ring
  | erdosRenyi

/-- One undirected edge insertion of the Erdős–Rényi branch:
`adj[i].push(j); adj[j].push(i)`. -/
def erInsert (adj : List (List ℤ)) (i j : ℕ) : List (List ℤ) :=
  let a := adj.set i (adj.getD i [] ++ [(j : ℤ)])
  a.set j (a.getD j [] ++ [(i : ℤ)])

/-- The Erdős–Rényi branch of `buildAdjacency`: for every pair `i < j`
(visited in the source's nested-loop order) the edge is added when the
next uniform draw is below `p`.  `Math.random()` is modelled as an
externally supplied stream `rand` providing one draw per pair. -/
def erAdj (N : ℕ) (p : ℝ) (rand : ℕ → ℕ → ℝ) : List (List ℤ) :=
  (List.range N).foldl (fun adj i =>
    (List.range N).foldl (fun adj j =>
      if i < j ∧ rand i j < p then erInsert adj i j else adj) adj)
    (List.replicate N [])

/-- `buildAdjacency(type, N, p)` from `kuramoto.ts`.  For `"all"` it
returns the `null` sentinel.  For `"ring"`, row `i` holds
`L = (i - 1 + N) % N` and `R = (i + 1) % N`, pushing `L` once when
`L === R` and both otherwise.  JS index arithmetic is modelled over `ℤ`. -/
def buildAdjacency (type : Topology) (N : ℕ) (p : ℝ) (rand : ℕ → ℕ → ℝ) :
    Option (List (List ℤ)) :=
  match type with
  | Topology.all => none
  | Topology.ring =>
      some ((List.range N).map (fun (i : ℕ) =>
        if ((i : ℤ) - 1 + N) % N = ((i : ℤ) + 1) % N
        then [((i : ℤ) - 1 + N) % N]
        else [((i : ℤ) - 1 + N) % N, ((i : ℤ) + 1) % N]))
  | Topology.erdosRenyi => some (erAdj N p rand)

/-- The `Scratch` interface: four phase-velocity buffers and the
temporary phase buffer used by the Runge–Kutta stages. -/
structure Scratch where
  k1 : List ℝ
  k2 : List ℝ
  k3 : List ℝ
  k4 : List ℝ
  tempTheta : List ℝ

/-- The state an `Integrator` mutates in place: the phase buffer `theta`,
the natural-frequency buffer `omega` (only ever read by the library), and
the scratch buffers.  In-place mutation is modelled by returning the
updated state. -/
structure SimState where
  theta : List ℝ
  omega : List ℝ
  tmp : Scratch

/-- `stepEuler` from `kuramoto.ts`.  `rng` models the `gaussian` deviate
source: the loop draws one deviate per oscillator, in index order, and
only when `sig` is truthy (`dW = sig ? sig * rng() : 0`). -/
def stepEuler (s : SimState) (dt noise : ℝ) (ctx : CouplingContext)
    (rng : ℕ → ℝ) : SimState :=
  let k1 := field s.tmp.k1 s.theta s.omega ctx
  let sig : ℝ := if 0 < noise then Real.sqrt dt * noise else 0
  let theta' := (List.range s.theta.length).map (fun i =>
    let dW : ℝ := if sig = 0 then 0 else sig * rng i
    wrapAngle (s.theta.getD i 0 + dt * k1.getD i 0 + dW))
  { theta := theta', omega := s.omega, tmp := { s.tmp with k1 := k1 } }

/-- `stepRK2` from `kuramoto.ts` (midpoint rule; noise added once at the
final update). -/
def stepRK2 (s : SimState) (dt noise : ℝ) (ctx : CouplingContext)
    (rng : ℕ → ℝ) : SimState :=
  let k1 := field s.tmp.k1 s.theta s.omega ctx
  let tempTheta := (List.range s.theta.length).map (fun i =>
    wrapAngle (s.theta.getD i 0 + 0.5 * dt * k1.getD i 0))
  let k2 := field s.tmp.k2 tempTheta s.omega ctx
  let sig : ℝ := if 0 < noise then Real.sqrt dt * noise else 0
  let theta' := (List.range s.theta.length).map (fun i =>
    let dW : ℝ := if sig = 0 then 0 else sig * rng i
    wrapAngle (s.theta.getD i 0 + dt * k2.getD i 0 + dW))
  { theta := theta', omega := s.omega,
    tmp := { s.tmp with k1 := k1, k2 := k2, tempTheta := tempTheta } }

/-- `stepRK4` from `kuramoto.ts` (classic four-stage update; the single
`tempTheta` buffer is overwritten between stages; noise added once at the
final combination). -/
def stepRK4 (s : SimState) (dt noise : ℝ) (ctx : CouplingContext)
    (rng : ℕ → ℝ) : SimState :=
  let k1 := field s.tmp.k1 s.theta s.omega ctx
  let t1 := (List.range s.theta.length).map (fun i =>
    wrapAngle (s.theta.getD i 0 + 0.5 * dt * k1.getD i 0))
  let k2 := field s.tmp.k2 t1 s.omega ctx
  let t2 := (List.range s.theta.length).map (fun i =>
    wrapAngle (s.theta.getD i 0 + 0.5 * dt * k2.getD i 0))
  let k3 := field s.tmp.k3 t2 s.omega ctx
  let t3 := (List.range s.theta.length).map (fun i =>
    wrapAngle (s.theta.getD i 0 + dt * k3.getD i 0))
  let k4 := field s.tmp.k4 t3 s.omega ctx
  let sig : ℝ := if 0 < noise then Real.sqrt dt * noise else 0
  let theta' := (List.range s.theta.length).map (fun i =>
    let incr := (dt / 6) * (k1.getD i 0 + 2 * k2.getD i 0
      + 2 * k3.getD i 0 + k4.getD i 0)
    let dW : ℝ := if sig = 0 then 0 else sig * rng i
    wrapAngle (s.theta.getD i 0 + incr + dW))
  { theta := theta', omega := s.omega,
    tmp := { k1 := k1, k2 := k2, k3 := k3, k4 := k4, tempTheta := t3 } }

/-- Separator class of the seeding tokenizer: the regex `[\s,]+` used by
`text.split(/[\s,]+/)` in `applyManualTheta` / `applyManualOmega`. -/
def isSepChar (c : Char) : Bool := c == ',' || c.isWhitespace

/-- Splitting a character stream at separator characters.  Runs of
separators yield empty tokens, which the callers filter out (mirroring
`.filter(t => t.length > 0)`; the `.map(t => t.trim())` of the source is
the identity on tokens split at the whitespace class). -/
def splitTokensAux : List Char → List Char → List String
  | [], acc => [String.mk acc.reverse]
  | c :: cs, acc =>
      if isSepChar c then String.mk acc.reverse :: splitTokensAux cs []
      else splitTokensAux cs (c :: acc)

/-- The valid numeric tokens of a seeding text:
`text.split(/[\s,]+/).map(trim).filter(nonempty).map(Number).filter(isFinite)`.
JS `Number` parsing composed with the finiteness filter is modelled by the
externally supplied `parseNum`, returning `none` on non-numeric or
non-finite tokens. -/
def validTokens (parseNum : String → Option ℝ) (text : String) : List ℝ :=
  ((splitTokensAux text.toList []).filter (fun t => t ≠ "")).filterMap parseNum

/-- `applyManualTheta(text)` from the app component: the first `N` valid
values are written in order, positions past the valid-token count receive
the last valid value, an empty token list zero-fills, and every entry is
then wrapped by `Math.atan2(Math.sin, Math.cos)`. -/
def applyManualTheta (parseNum : String → Option ℝ) (text : String)
    (th : List ℝ) : List ℝ :=
  let tokens := validTokens parseNum text
  let n := th.length
  let seeded : List ℝ :=
    match tokens with
    | [] => List.replicate n 0
    | tok :: toks =>
        (List.range n).map (fun i =>
          (tok :: toks).getD i ((tok :: toks).getLastD 0))
  seeded.map wrapAngle

/-- `applyManualOmega(text)` from the app component: same fill rule as
`applyManualTheta`, without the final wrapping pass. -/
def applyManualOmega (parseNum : String → Option ℝ) (text : String)
    (w : List ℝ) : List ℝ :=
  match validTokens parseNum text with
  | [] => List.replicate w.length 0
  | tok :: toks =>
      (List.range w.length).map (fun i =>
        (tok :: toks).getD i ((tok :: toks).getLastD 0))

/-- A recorded time-series sample: simulation time and order magnitude. -/
structure SamplePoint where
  t : ℝ
  r : ℝ

/-- `buf.push(pt); if (buf.length > 600) buf.shift();` — the only
operation that appends to the time-series sample buffer (in
`stepSimulation` of the app component and in the frame loop of
`useKuramoto`). -/
def pushSample (buf : List SamplePoint) (pt : SamplePoint) :
    List SamplePoint :=
  let b := buf ++ [pt]
  if 600 < b.length then b.tail else b

/-- Reachable states of the sample buffer: it is created as a singleton,
grows only through `pushSample`, and `resetChart` replaces it by a
singleton. -/
inductive RBufReachable : List SamplePoint → Prop
  | init (p : SamplePoint) : RBufReachable [p]
  | push (buf : List SamplePoint) (p : SamplePoint) :
      RBufReachable buf → RBufReachable (pushSample buf p)
  | reset (buf : List SamplePoint) (p : SamplePoint) :
      RBufReachable buf → RBufReachable [p]

end Kuramoto

namespace Kuramoto

/- ### Helper lemmas -/

/-- `√(x² + y²)` is the absolute value of the complex number `⟨x, y⟩`. -/
theorem sqrt_sq_add_sq_eq_abs (x y : ℝ) :
    Real.sqrt (x ^ 2 + y ^ 2) = Complex.abs ⟨x, y⟩ := by
  rw [Complex.abs_apply, Complex.normSq_mk]
  ring_nf

/-- Scaling `sin ∘ arg` by the magnitude recovers the imaginary part. -/
theorem sqrt_mul_sin_atan2 (x y : ℝ) :
    Real.sqrt (x ^ 2 + y ^ 2) * Real.sin (atan2 y x) = y := by
  rw [sqrt_sq_add_sq_eq_abs, atan2, Complex.abs_mul_sin_arg]

/-- Scaling `cos ∘ arg` by the magnitude recovers the real part. -/
theorem sqrt_mul_cos_atan2 (x y : ℝ) :
    Real.sqrt (x ^ 2 + y ^ 2) * Real.cos (atan2 y x) = x := by
  rw [sqrt_sq_add_sq_eq_abs, atan2, Complex.abs_mul_cos_arg]

/-- `atan2` always lands in the interval `(-π, π]`. -/
theorem atan2_mem_Ioc (y x : ℝ) : atan2 y x ∈ Set.Ioc (-π) π :=
  Complex.arg_mem_Ioc _

/-- `wrapAngle` fixes every angle already in `(-π, π]`. -/
theorem wrapAngle_eq_self {x : ℝ} (hx : x ∈ Set.Ioc (-π) π) :
    wrapAngle x = x := by
  rw [wrapAngle, atan2, Complex.mk_eq_add_mul_I, Complex.ofReal_sin,
    Complex.ofReal_cos]
  exact Complex.arg_cos_add_sin_mul_I hx

/-- **C5** — For every real `θ`, `wrapAngle θ` lies in `(-π, π]`, and
`wrapAngle` is idempotent: `wrapAngle (wrapAngle x) = wrapAngle x`. -/
theorem wrapAngle_mem_Ioc_and_idem (x : ℝ) :
    wrapAngle x ∈ Set.Ioc (-π) π ∧ wrapAngle (wrapAngle x) = wrapAngle x :=
  ⟨atan2_mem_Ioc _ _, wrapAngle_eq_self (atan2_mem_Ioc _ _)⟩

/-- Reading index `i < N` out of a buffer built by mapping over `0..N-1`. -/
theorem getD_range_map {α : Type} (f : ℕ → α) (d : α) {N i : ℕ} (h : i < N) :
    ((List.range N).map f).getD i d = f i := by
  simp [List.getD_eq_getElem?_getD, List.getElem?_map, List.getElem?_range, h]

/-- Trigonometric expansion of the pairwise Kuramoto coupling sum. -/
theorem sum_map_sin_sub (theta : List ℝ) (a : ℝ) :
    (theta.map (fun t => Real.sin (t - a))).sum
      = Real.cos a * (theta.map Real.sin).sum
        - Real.sin a * (theta.map Real.cos).sum := by
  induction theta with
  | nil => simp
  | cons x l ih =>
      simp only [List.map_cons, List.sum_cons]
      rw [ih, Real.sin_sub]
      ring

/-- Unfolding of the magnitude component of `computeOrder`. -/
theorem computeOrder_fst (theta : List ℝ) :
    (computeOrder theta).1
      = Real.sqrt (((theta.map Real.cos).sum * (1 / (theta.length : ℝ))) ^ 2
        + ((theta.map Real.sin).sum * (1 / (theta.length : ℝ))) ^ 2) := rfl

/-- The squared norm of the summed unit phasors is at most `N²`. -/
theorem sum_cos_sq_add_sum_sin_sq_le (theta : List ℝ) :
    ((theta.map Real.cos).sum) ^ 2 + ((theta.map Real.sin).sum) ^ 2
      ≤ (theta.length : ℝ) ^ 2 := by
  induction theta with
  | nil => simp
  | cons x l ih =>
      simp only [List.map_cons, List.sum_cons, List.length_cons]
      push_cast
      have hn : (0 : ℝ) ≤ (l.length : ℝ) := Nat.cast_nonneg _
      nlinarith [Real.sin_sq_add_cos_sq x,
        sq_nonneg (Real.cos x * (List.map Real.sin l).sum
          - Real.sin x * (List.map Real.cos l).sum),
        sq_nonneg (Real.cos x * (List.map Real.cos l).sum
          + Real.sin x * (List.map Real.sin l).sum - (l.length : ℝ)),
        ih]

/-- **C6** — For every phase vector of length `N ≥ 1`, the magnitude
returned by `computeOrder` satisfies `0 ≤ r ≤ 1`, and on an ensemble where
all `N` phases equal a common value `c` it is exactly `1`. -/
theorem computeOrder_r_bounds (theta : List ℝ) (h : 1 ≤ theta.length) :
    0 ≤ (computeOrder theta).1 ∧ (computeOrder theta).1 ≤ 1
    ∧ ∀ c : ℝ, (computeOrder (List.replicate theta.length c)).1 = 1 := by
  have hN : (0 : ℝ) < (theta.length : ℝ) := by exact_mod_cast h
  refine ⟨Real.sqrt_nonneg _, ?_, ?_⟩
  · rw [computeOrder_fst]
    apply Real.sqrt_le_one.mpr
    calc ((theta.map Real.cos).sum * (1 / (theta.length : ℝ))) ^ 2
          + ((theta.map Real.sin).sum * (1 / (theta.length : ℝ))) ^ 2
        = (((theta.map Real.cos).sum) ^ 2 + ((theta.map Real.sin).sum) ^ 2)
            * (1 / (theta.length : ℝ)) ^ 2 := by ring
      _ ≤ (theta.length : ℝ) ^ 2 * (1 / (theta.length : ℝ)) ^ 2 := by
            exact mul_le_mul_of_nonneg_right
              (sum_cos_sq_add_sum_sin_sq_le theta) (sq_nonneg _)
      _ = ((theta.length : ℝ) * (1 / (theta.length : ℝ))) ^ 2 := by ring
      _ = 1 := by rw [mul_one_div_cancel hN.ne']; norm_num
  · intro c
    rw [computeOrder_fst]
    rw [List.length_replicate, List.map_replicate, List.map_replicate,
      List.sum_replicate, List.sum_replicate, nsmul_eq_mul, nsmul_eq_mul]
    have hc : (theta.length : ℝ) * Real.cos c * (1 / (theta.length : ℝ))
        = Real.cos c := by field_simp
    have hs : (theta.length : ℝ) * Real.sin c * (1 / (theta.length : ℝ))
        = Real.sin c := by field_simp
    rw [hc, hs, Real.cos_sq_add_sin_sq, Real.sqrt_one]

/-- Witness for C6 at `θ = [0]`. -/
theorem computeOrder_r_bounds_witness :
    1 ≤ ([0] : List ℝ).length
    ∧ (0 ≤ (computeOrder [0]).1 ∧ (computeOrder [0]).1 ≤ 1
       ∧ ∀ c : ℝ,
          (computeOrder (List.replicate ([0] : List ℝ).length c)).1 = 1) :=
  ⟨by simp, computeOrder_r_bounds [0] (by simp)⟩

/-- Unfolding of `field` in the all-to-all (`adj === null`) branch. -/
theorem field_none (out theta omega : List ℝ) (K : ℝ) :
    field out theta omega ⟨K, none⟩
      = (List.range theta.length).map (fun i =>
          omega.getD i 0 + K * (computeOrder theta).1
            * Real.sin ((computeOrder theta).2 - theta.getD i 0)) := rfl

/-- **C1** — The explicit-adjacency branch of `field` never writes the
output buffer: for every initial buffer, phases, frequencies, coupling
strength and adjacency, the buffer comes back exactly as it went in,
instead of receiving `ω[i] + (K/degree(i))·Σ_{j∈adj(i)} sin(θⱼ−θᵢ)`. -/
theorem field_adjacency_leaves_out_unchanged (out theta omega : List ℝ)
    (K : ℝ) (A : List (List ℤ)) :
    field out theta omega ⟨K, some A⟩ = out := rfl

/-- **C2** — For the all-to-all context, `field`'s O(N) output computed via
the order-parameter identity `K·r·sin(ψ−θᵢ)` equals the naive pairwise sum
`ω[i] + (K/N)·Σⱼ sin(θⱼ−θᵢ)`, exactly over the reals. -/
theorem field_allToAll_matches_pairwise_sum (out theta omega : List ℝ)
    (K : ℝ) (i : ℕ) (hi : i < theta.length) :
    (field out theta omega ⟨K, none⟩).getD i 0
      = omega.getD i 0
        + (K / (theta.length : ℝ))
          * (theta.map (fun t => Real.sin (t - theta.getD i 0))).sum := by
  rw [field_none, getD_range_map _ _ hi, sum_map_sin_sub]
  have hfst : (computeOrder theta).1
      = Real.sqrt (((theta.map Real.cos).sum * (1 / (theta.length : ℝ))) ^ 2
        + ((theta.map Real.sin).sum * (1 / (theta.length : ℝ))) ^ 2) := rfl
  have hsnd : (computeOrder theta).2
      = atan2 ((theta.map Real.sin).sum * (1 / (theta.length : ℝ)))
          ((theta.map Real.cos).sum * (1 / (theta.length : ℝ))) := rfl
  rw [hfst, hsnd, Real.sin_sub]
  have h1 := sqrt_mul_sin_atan2
    ((theta.map Real.cos).sum * (1 / (theta.length : ℝ)))
    ((theta.map Real.sin).sum * (1 / (theta.length : ℝ)))
  have h2 := sqrt_mul_cos_atan2
    ((theta.map Real.cos).sum * (1 / (theta.length : ℝ)))
    ((theta.map Real.sin).sum * (1 / (theta.length : ℝ)))
  linear_combination (K * Real.cos (theta.getD i 0)) * h1
    - (K * Real.sin (theta.getD i 0)) * h2

/-- Witness for C2 at `θ = [0]`, `ω = [2]`, `K = 3`, `i = 0`. -/
theorem field_allToAll_matches_pairwise_sum_witness :
    0 < ([0] : List ℝ).length
    ∧ (field [] [0] [2] ⟨3, none⟩).getD 0 0
        = ([2] : List ℝ).getD 0 0
          + (3 / (([0] : List ℝ).length : ℝ))
            * (([0] : List ℝ).map
                (fun t => Real.sin (t - ([0] : List ℝ).getD 0 0))).sum :=
  ⟨by simp, field_allToAll_matches_pairwise_sum [] [0] [2] 3 0 (by simp)⟩

/-- Wrapping the zero angle is the identity. -/
theorem wrapAngle_zero : wrapAngle 0 = 0 :=
  wrapAngle_eq_self ⟨neg_lt_zero.mpr Real.pi_pos, Real.pi_pos.le⟩

/-- **C10** — No integrator writes the natural-frequency buffer: after one
`stepEuler`, `stepRK2` or `stepRK4` invocation `omega` is exactly what it
was before the call. -/
theorem integrators_preserve_omega (s : SimState) (dt noise : ℝ)
    (ctx : CouplingContext) (rng : ℕ → ℝ) :
    (stepEuler s dt noise ctx rng).omega = s.omega
    ∧ (stepRK2 s dt noise ctx rng).omega = s.omega
    ∧ (stepRK4 s dt noise ctx rng).omega = s.omega :=
  ⟨rfl, rfl, rfl⟩

/-- **C9** — Every reachable state of the time-series sample buffer holds
at most 600 entries: the buffer starts as a singleton and every append
evicts from the front once the length exceeds 600. -/
theorem sampleBuffer_le_600 (buf : List SamplePoint)
    (h : RBufReachable buf) : buf.length ≤ 600 := by
  induction h with
  | init p => simp
  | reset buf p _ _ => simp
  | push buf p _ ih =>
      simp only [pushSample]
      by_cases hb : 600 < (buf ++ [p]).length
      · rw [if_pos hb]
        simp only [List.length_tail, List.length_append, List.length_cons,
          List.length_nil]
        omega
      · rw [if_neg hb]
        simp only [List.length_append, List.length_cons, List.length_nil]
          at hb ⊢
        omega

/-- Witness for C9: a freshly created singleton buffer is reachable and
within the bound. -/
theorem sampleBuffer_le_600_witness :
    RBufReachable [⟨0, 1⟩] ∧ ([⟨0, 1⟩] : List SamplePoint).length ≤ 600 :=
  ⟨RBufReachable.init _, sampleBuffer_le_600 _ (RBufReachable.init _)⟩

/-- Reading index `i < n` out of a constant buffer. -/
theorem getD_replicate {α : Type} (a d : α) {n i : ℕ} (h : i < n) :
    (List.replicate n a).getD i d = a := by
  simp [List.getD_eq_getElem?_getD, List.getElem?_replicate, h]

/-- Row `i` of the ring adjacency produced by `buildAdjacency`. -/
theorem buildAdjacency_ring_row (N : ℕ) (p : ℝ) (rand : ℕ → ℕ → ℝ)
    {i : ℕ} (hi : i < N) :
    ((buildAdjacency Topology.ring N p rand).getD []).getD i []
      = (if ((i : ℤ) - 1 + N) % N = ((i : ℤ) + 1) % N
         then [((i : ℤ) - 1 + N) % N]
         else [((i : ℤ) - 1 + N) % N, ((i : ℤ) + 1) % N]) := by
  have h1 : buildAdjacency Topology.ring N p rand
      = some ((List.range N).map (fun (i : ℕ) =>
          if ((i : ℤ) - 1 + N) % N = ((i : ℤ) + 1) % N
          then [((i : ℤ) - 1 + N) % N]
          else [((i : ℤ) - 1 + N) % N, ((i : ℤ) + 1) % N])) := rfl
  rw [h1, Option.getD_some, getD_range_map _ _ hi]

/-- **C7** — For `N ≥ 2` and `i < N`, ring row `i` contains both
`(i−1) mod N` and `(i+1) mod N`; for `N = 2` the two coincide and the row
is the single entry `[(i+1) mod 2]` (the other node), not two entries. -/
theorem buildAdjacency_ring_neighbors (N i : ℕ) (p : ℝ)
    (rand : ℕ → ℕ → ℝ) (hN : 2 ≤ N) (hi : i < N) :
    ((i : ℤ) - 1 + N) % N
        ∈ ((buildAdjacency Topology.ring N p rand).getD []).getD i []
    ∧ ((i : ℤ) + 1) % N
        ∈ ((buildAdjacency Topology.ring N p rand).getD []).getD i []
    ∧ (N = 2 →
        ((buildAdjacency Topology.ring N p rand).getD []).getD i []
          = [((i : ℤ) + 1) % N]) := by
  rw [buildAdjacency_ring_row N p rand hi]
  refine ⟨?_, ?_, ?_⟩
  · by_cases h : ((i : ℤ) - 1 + N) % N = ((i : ℤ) + 1) % N
    · rw [if_pos h]
      exact List.mem_singleton.mpr rfl
    · rw [if_neg h]
      exact List.mem_cons_self _ _
  · by_cases h : ((i : ℤ) - 1 + N) % N = ((i : ℤ) + 1) % N
    · rw [if_pos h]
      exact List.mem_singleton.mpr h.symm
    · rw [if_neg h]
      exact List.mem_cons_of_mem _ (List.mem_cons_self _ _)
  · intro h2
    subst h2
    interval_cases i <;> decide

/-- Witness for C7 at `N = 2`, `i = 0`. -/
theorem buildAdjacency_ring_neighbors_witness :
    2 ≤ 2 ∧ 0 < 2
    ∧ (((0 : ℤ) - 1 + 2) % 2
        ∈ ((buildAdjacency Topology.ring 2 0 (fun _ _ => 0)).getD []).getD 0 []
      ∧ ((0 : ℤ) + 1) % 2
        ∈ ((buildAdjacency Topology.ring 2 0 (fun _ _ => 0)).getD []).getD 0 []
      ∧ ((2 : ℕ) = 2 →
        ((buildAdjacency Topology.ring 2 0 (fun _ _ => 0)).getD []).getD 0 []
          = [((0 : ℤ) + 1) % 2])) := by
  refine ⟨le_refl 2, by norm_num, ?_⟩
  exact_mod_cast buildAdjacency_ring_neighbors 2 0 0 (fun _ _ => 0)
    (le_refl 2) (by norm_num)

/-- **C8** — Manual phase seeding: the text is tokenized on
whitespace/commas with non-numeric tokens silently dropped; the result
keeps the buffer length, entry `i` is the wrapped `i`-th valid value
(the last valid value past the token count, `0` when no token is valid —
the zero-fill case is also stated explicitly), and every seeded phase
lands in `(-π, π]`. -/
theorem applyManualTheta_spec (parseNum : String → Option ℝ) (text : String)
    (th : List ℝ) (i : ℕ) (hi : i < th.length) :
    (applyManualTheta parseNum text th).length = th.length
    ∧ (applyManualTheta parseNum text th).getD i 0
        = wrapAngle ((validTokens parseNum text).getD i
            ((validTokens parseNum text).getLastD 0))
    ∧ (validTokens parseNum text = []
        → applyManualTheta parseNum text th = List.replicate th.length 0)
    ∧ ∀ x ∈ applyManualTheta parseNum text th, x ∈ Set.Ioc (-π) π := by
  have hmem : ∀ x ∈ applyManualTheta parseNum text th, x ∈ Set.Ioc (-π) π := by
    intro x hx
    simp only [applyManualTheta, List.mem_map] at hx
    obtain ⟨y, -, rfl⟩ := hx
    exact atan2_mem_Ioc _ _
  rcases htok : validTokens parseNum text with _ | ⟨tok, toks⟩
  · have hform : applyManualTheta parseNum text th
        = (List.replicate th.length (0 : ℝ)).map wrapAngle := by
      unfold applyManualTheta
      rw [htok]
    refine ⟨?_, ?_, fun _ => ?_, hmem⟩
    · rw [hform]; simp
    · rw [hform, List.map_replicate, getD_replicate _ _ hi]
      simp
    · rw [hform, List.map_replicate, wrapAngle_zero]
  · have hform : applyManualTheta parseNum text th
        = ((List.range th.length).map (fun j =>
            (tok :: toks).getD j ((tok :: toks).getLastD 0))).map wrapAngle := by
      unfold applyManualTheta
      rw [htok]
    refine ⟨?_, ?_, fun h => ?_, hmem⟩
    · rw [hform]; simp
    · rw [hform, List.map_map, getD_range_map _ _ hi]
      rfl
    · exact absurd h (List.cons_ne_nil _ _)

/-- Witness for C8: three-slot buffer, two numeric tokens and one
rejected token. -/
theorem applyManualTheta_spec_witness :
    0 < ([0, 0, 0] : List ℝ).length
    ∧ ((applyManualTheta
          (fun s => if s = "1" then some 1 else if s = "2" then some 2 else none)
          "1, 2 x" [0, 0, 0]).length = ([0, 0, 0] : List ℝ).length
      ∧ (applyManualTheta
          (fun s => if s = "1" then some 1 else if s = "2" then some 2 else none)
          "1, 2 x" [0, 0, 0]).getD 0 0
          = wrapAngle ((validTokens
              (fun s => if s = "1" then some 1 else if s = "2" then some 2 else none)
              "1, 2 x").getD 0
              ((validTokens
                (fun s => if s = "1" then some 1 else if s = "2" then some 2 else none)
                "1, 2 x").getLastD 0))
      ∧ (validTokens
            (fun s => if s = "1" then some 1 else if s = "2" then some 2 else none)
            "1, 2 x" = []
          → applyManualTheta
              (fun s => if s = "1" then some 1 else if s = "2" then some 2 else none)
              "1, 2 x" [0, 0, 0]
            = List.replicate ([0, 0, 0] : List ℝ).length 0)
      ∧ ∀ x ∈ applyManualTheta
          (fun s => if s = "1" then some 1 else if s = "2" then some 2 else none)
          "1, 2 x" [0, 0, 0], x ∈ Set.Ioc (-π) π) :=
  ⟨by simp,
   applyManualTheta_spec
     (fun s => if s = "1" then some 1 else if s = "2" then some 2 else none)
     "1, 2 x" [0, 0, 0] 0 (by simp)⟩

/-- **C4** — With the all-to-all context and `K = 0`, one `stepRK4`
invocation produces exactly the phase vector of one `stepEuler`
invocation from the same state, for any `dt`, any `noiseAmplitude` and
the same deterministic deviate source: all four stages evaluate to `ω`,
the RK4 combination collapses to `dt·ω`, and the noise draw happens
identically once per oscillator at the final update. -/
theorem stepRK4_eq_stepEuler_K_zero (s : SimState) (dt noise : ℝ)
    (rng : ℕ → ℝ) :
    (stepRK4 s dt noise ⟨0, none⟩ rng).theta
      = (stepEuler s dt noise ⟨0, none⟩ rng).theta := by
  simp only [stepRK4, stepEuler, field_none]
  simp only [List.length_map, List.length_range]
  refine List.map_congr_left (fun i hi => ?_)
  rw [List.mem_range] at hi
  simp only [getD_range_map _ _ hi]
  congr 1
  ring

/-- **C3** — Failing evaluation for the Euler step with an
explicit-adjacency context: at `θ = [0,0]`, `ω = [1,1]`, `dt = 1`,
`noise = 0`, `K = 0` over the ring topology on two oscillators with a
zeroed scratch buffer, `stepEuler` leaves both phases at `0` (the field
evaluator never wrote `k1`), while the claimed update
`wrap(θᵢ + dt·ωᵢ)` is `1 ≠ 0`. -/
theorem stepEuler_K_zero_ring_failure :
    (stepEuler ⟨[0, 0], [1, 1], ⟨[0, 0], [0, 0], [0, 0], [0, 0], [0, 0]⟩⟩ 1 0
        ⟨0, buildAdjacency Topology.ring 2 (1 / 20) (fun _ _ => 0)⟩
        (fun _ => 0)).theta = [0, 0]
    ∧ wrapAngle (0 + 1 * 1 + 0) ≠ 0 := by
  constructor
  · simp [stepEuler, buildAdjacency, field, List.range_succ, wrapAngle_zero]
  · have h1 : wrapAngle (0 + 1 * 1 + 0) = 1 := by
      norm_num
      exact wrapAngle_eq_self
        ⟨by linarith [Real.pi_gt_three], by linarith [Real.pi_gt_three]⟩
    rw [h1]
    norm_num

end Kuramoto
